import Mathlib

/-!
Verification of the scoped `catch (_error)` rewriter of
`fix_error_vars.py`.

The script reads a file, splits its text on the regular expression
`catch\s*\(\s*_error\s*\)\s*\{`, brace-counts each part to find the end of
the catch body, applies five `re.sub` rewrite rules to the body, and
re-assembles the document, inserting the literal header `catch (_error) {`
in place of each matched header.  It writes the file back exactly when the
assembled text differs from the original, returning the number of changed
bodies (or 0 when nothing was written).

The embedding below models text as `List Char`.  Scanning functions that
consume more than one character per step take an explicit fuel argument
(initialised to the length of the scanned text, which always suffices
because every step consumes at least one character); running out of fuel
returns the remaining text unscanned, so all structural lemmas hold for
every fuel value.  Character classes model the ASCII behaviour of the
regex classes `\s` and `\w`.
-/

def strL (s : String) : List Char := s.toList

/-- ASCII whitespace, as matched by the regex class `\s`. -/
def isWS (c : Char) : Bool :=
  c = ' ' || c = '\t' || c = '\n' || c = '\r' || c = '\x0b' || c = '\x0c'

/-- ASCII word characters, as matched by the regex class `\w`
(relevant for the word boundary `\b` in `\berror\.`). -/
def isWordChar (c : Char) : Bool :=
  c.isAlphanum || c = '_'

/-- The word boundary `\b` holds before a word character exactly when the
preceding character (if any) is not a word character. -/
def prevNonWord : Option Char → Bool
  | none => true
  | some c => !(isWordChar c)

/-- Consume a literal prefix, returning the remainder on success. -/
def expectStr (pat t : List Char) : Option (List Char) :=
  if pat.isPrefixOf t then some (t.drop pat.length) else none

/-- Consume the maximal run of whitespace (`\s*`). -/
def dropWS : List Char → List Char
  | [] => []
  | c :: t => if isWS c then dropWS t else c :: t

/-- Match the header pattern `catch\s*\(\s*_error\s*\)\s*\{` at the start of
the text, returning the remainder after the opening brace. -/
def matchHeader (t : List Char) : Option (List Char) :=
  (expectStr (strL "catch") t).bind fun t1 =>
  (expectStr ['('] (dropWS t1)).bind fun t2 =>
  (expectStr (strL "_error") (dropWS t2)).bind fun t3 =>
  (expectStr [')'] (dropWS t3)).bind fun t4 =>
  expectStr ['\x7b'] (dropWS t4)

/-- Find the leftmost header match: returns `(pre, header, rest)` with
`t = pre ++ header ++ rest`, or `none` when no position matches. -/
def findSplit : List Char → Option (List Char × List Char × List Char)
  | [] => none
  | c :: t =>
    match matchHeader (c :: t) with
    | some rest =>
      some ([], (c :: t).take ((c :: t).length - rest.length), rest)
    | none => (findSplit t).map fun pr => (c :: pr.1, pr.2.1, pr.2.2)

/-- Repeated header splitting, as performed by `re.split(catch_pattern,
content)`: returns the text before the first match and, for each match, the
matched header together with the part extending to the next match (or to
the end of the text).  The part list is empty exactly when `re.split`
returns a single-element list. -/
def splitCatchAux : Nat → List Char → List Char × List (List Char × List Char)
  | 0, t => (t, [])
  | n + 1, t =>
    match findSplit t with
    | none => (t, [])
    | some (pre, h, rest) =>
      let r := splitCatchAux n rest
      (pre, (h, r.1) :: r.2)

def splitCatchFull (t : List Char) : List Char × List (List Char × List Char) :=
  splitCatchAux t.length t

/-- The brace-counting scan of lines 36–46: starting just after an opening
brace already counted at depth `d`, step through the part, incrementing on
`{` and decrementing on `}`; return the index of the brace at which the
depth reaches 0, or `none` if the part ends first. -/
def findClose : List Char → Nat → Option Nat
  | [], _ => none
  | c :: t, d =>
    if c = '\x7b' then (findClose t (d + 1)).map (· + 1)
    else if c = '\x7d' then
      if d = 1 then some 0 else (findClose t (d - 1)).map (· + 1)
    else (findClose t d).map (· + 1)

/-- Rule 1, `re.sub(r'\berror\.', '_error.', body)`: scanning replacement
of `error.` at word boundaries, threading the previous character. -/
def subMemberAux : Nat → Option Char → List Char → List Char
  | 0, _, s => s
  | _ + 1, _, [] => []
  | n + 1, p, c :: t =>
    if prevNonWord p ∧ (strL "error.").isPrefixOf (c :: t) then
      strL "_error." ++ subMemberAux n (some '.') ((c :: t).drop 6)
    else c :: subMemberAux n (some c) t

def subMember (s : List Char) : List Char := subMemberAux s.length none s

/-- Literal scanning replacement: `re.sub` for a pattern with no
metacharacters. -/
def subLitAux (pat repl : List Char) : Nat → List Char → List Char
  | 0, s => s
  | _ + 1, [] => []
  | n + 1, c :: t =>
    if pat.isPrefixOf (c :: t) then
      repl ++ subLitAux pat repl n ((c :: t).drop pat.length)
    else c :: subLitAux pat repl n t

/-- Rule 2, `re.sub(r'\(error\)', '(_error)', ...)`. -/
def subParen (s : List Char) : List Char :=
  subLitAux (strL "(error)") (strL "(_error)") s.length s

/-- Rule 3, `re.sub(r', error\)', ', _error)', ...)`. -/
def subComma (s : List Char) : List Char :=
  subLitAux (strL ", error)") (strL ", _error)") s.length s

/-- Rule 4, `re.sub(r'throw error;', 'throw _error;', ...)`. -/
def subThrow (s : List Char) : List Char :=
  subLitAux (strL "throw error;") (strL "throw _error;") s.length s

/-- Rule 5, `re.sub(r'return error;', 'return _error;', ...)`. -/
def subRet (s : List Char) : List Char :=
  subLitAux (strL "return error;") (strL "return _error;") s.length s

/-- The five rewrite rules of lines 54–58, applied in order, each to the
result of the previous one. -/
def fixedBody (b : List Char) : List Char :=
  subRet (subThrow (subComma (subParen (subMember b))))

/-- The canonical header text re-inserted by lines 63 and 67. -/
def canonHeader : List Char := strL "catch (_error) \x7b"

/-- Python's `end_pos`: 0 both when no closing brace is found and when the
closing brace is at index 0. -/
def endPos (part : List Char) : Nat := (findClose part 1).getD 0

def bodyOf (part : List Char) : List Char := part.take (endPos part)

def restOf (part : List Char) : List Char := part.drop (endPos part)

/-- Processing of one part (lines 35–68): when `end_pos > 0`, emit the
canonical header, the rewritten body and the rest, counting 1 when the body
changed; otherwise emit the canonical header and the part verbatim. -/
def processPart (part : List Char) : List Char × Nat :=
  let ep := endPos part
  if ep > 0 then
    let body := part.take ep
    let rest := part.drop ep
    let fb := fixedBody body
    (canonHeader ++ fb ++ rest, if fb ≠ body then 1 else 0)
  else
    (canonHeader ++ part, 0)

/-- The per-document rewrite (lines 22–70): split on the header pattern;
with no match return the text unchanged and count 0, otherwise re-assemble
from the first part and the processed parts, summing the change count. -/
def rewriteCore (content : List Char) : List Char × Nat :=
  if (splitCatchFull content).2.isEmpty then (content, 0)
  else
    ((splitCatchFull content).1 ++
       ((splitCatchFull content).2.map fun b => (processPart b.2).1).flatten,
     ((splitCatchFull content).2.map fun b => (processPart b.2).2).sum)

/-- The whole of `fix_error_references` on one document (lines 11–80):
the third component records whether the file is written back, which
happens exactly when the assembled text differs from the original; the
function returns the change count when it writes and 0 otherwise. -/
def fix_error_references (content : List Char) : List Char × Nat × Bool :=
  if (rewriteCore content).1 ≠ content then
    ((rewriteCore content).1, (rewriteCore content).2, true)
  else (content, 0, false)

/-- Depth contribution of one character: `{` opens, `}` closes. -/
def braceStep (c : Char) : Int :=
  if c = '\x7b' then 1 else if c = '\x7d' then -1 else 0

/-- Depth of the scan after reading `t`, having started at depth `d`. -/
def braceDepth (d : Nat) (t : List Char) : Int :=
  (d : Int) + (t.map braceStep).sum

/-- Concrete scenario D input: a canonical header whose block never
closes. -/
def scenarioD : List Char := strL "catch (_error) \x7b console.log(error.message);"

/-- Concrete scenario B input from the spec. -/
def scenarioB : List Char :=
  strL "catch (_error) \x7b try \x7b doX(); \x7d catch (_error) \x7b throw error; \x7d \x7d"

/-- Scenario B with a direct reference (`error.x;`) in the outer body. -/
def scenarioB2 : List Char :=
  strL "catch (_error) \x7b error.x; try \x7b d(); \x7d catch (_error) \x7b throw error; \x7d \x7d"

/-- Concrete scenario A input from the spec. -/
def scenarioA : List Char :=
  strL "catch (_error) \x7b console.log(error.message); \x7d"

/-- Concrete scenario C input from the spec. -/
def scenarioC : List Char :=
  strL "catch (_error) \x7b /* no reference */ \x7d"

/-- Document whose body rewrite creates a new header occurrence: rule 2
turns `catch(error){` into `catch(_error){`. -/
def docHeaderCreating : List Char :=
  strL "catch (_error) \x7b catch(error)\x7b \x7d \x7d"

/-- Sequential application of an ordered rule list, each rule operating on
the result of the previous one. -/
def applyRules (rules : List (List Char → List Char)) (b : List Char) :
    List Char :=
  rules.foldl (fun t r => r t) b

/-- The ordered rule list of lines 54–58: member access, sole parenthesized
argument, second of two arguments, `throw error;`, `return error;`. -/
def ruleFns : List (List Char → List Char) :=
  [subMember, subParen, subComma, subThrow, subRet]

/-- The left/right contexts of the five rule patterns around the `error`
token: `\berror\.`, `(error)`, `, error)`, `throw error;`, `return error;`.
`rp` is the reversed left context, `s` the text following the token. -/
def shapeOk (rp s : List Char) : Prop :=
  (prevNonWord rp.head? = true ∧ s.head? = some '.') ∨
  (rp.head? = some '(' ∧ s.head? = some ')') ∨
  ([' ', ','].isPrefixOf rp = true ∧ s.head? = some ')') ∨
  ((strL "throw ").reverse.isPrefixOf rp = true ∧ s.head? = some ';') ∨
  ((strL "return ").reverse.isPrefixOf rp = true ∧ s.head? = some ';')

inductive RenX : List Char → List Char → List Char → Prop
  | nil (rp : List Char) : RenX rp [] []
  | copy (rp : List Char) (c : Char) (t u : List Char) :
      RenX (c :: rp) t u → RenX rp (c :: t) (c :: u)
  | ins (rp t u : List Char) (h : shapeOk rp t) :
      RenX ('r' :: 'o' :: 'r' :: 'r' :: 'e' :: rp) t u →
      RenX rp ('e' :: 'r' :: 'r' :: 'o' :: 'r' :: t)
        ('_' :: 'e' :: 'r' :: 'r' :: 'o' :: 'r' :: u)

inductive InsNW : Option Char → List Char → List Char → Prop
  | nil (p : Option Char) : InsNW p [] []
  | copy (p : Option Char) (c : Char) (t u : List Char) :
      InsNW (some c) t u → InsNW p (c :: t) (c :: u)
  | ins (p : Option Char) (t u : List Char) (h : prevNonWord p = true) :
      InsNW (some 'r') t u →
      InsNW p ('e' :: 'r' :: 'r' :: 'o' :: 'r' :: t)
        ('_' :: 'e' :: 'r' :: 'r' :: 'o' :: 'r' :: u)

/-- Relation between a reversed prefix and the same prefix with inserted
`_` characters (the left contexts seen by two successive passes). -/
inductive Insd : List Char → List Char → Prop
  | nil : Insd [] []
  | cons (c : Char) (a b : List Char) : Insd a b → Insd (c :: a) (c :: b)
  | ins (a b : List Char) : Insd a b → Insd a ('_' :: b)

theorem isPrefixOf_eq_append :
    ∀ {p t : List Char}, p.isPrefixOf t = true → t = p ++ t.drop p.length := by
  intro p t h
  have h2 : p <+: t := by simpa using h
  obtain ⟨u, hu⟩ := h2
  rw [← hu, List.drop_left]

theorem expectStr_eq_append {pat t r : List Char}
    (h : expectStr pat t = some r) : t = pat ++ r := by
  unfold expectStr at h
  by_cases hp : pat.isPrefixOf t = true
  · simp [hp] at h
    subst h
    exact isPrefixOf_eq_append hp
  · simp [hp] at h

theorem dropWS_exists_append (t : List Char) : ∃ w, t = w ++ dropWS t := by
  induction t with
  | nil => exact ⟨[], rfl⟩
  | cons c t ih =>
    by_cases hc : isWS c = true
    · obtain ⟨w, hw⟩ := ih
      exact ⟨c :: w, by simp [dropWS, hc]; exact hw⟩
    · exact ⟨[], by simp [dropWS, hc]⟩

theorem matchHeader_exists_append {t r : List Char}
    (h : matchHeader t = some r) : ∃ hd, t = hd ++ r := by
  unfold matchHeader at h
  rw [Option.bind_eq_some] at h
  obtain ⟨t1, h1, h⟩ := h
  rw [Option.bind_eq_some] at h
  obtain ⟨t2, h2, h⟩ := h
  rw [Option.bind_eq_some] at h
  obtain ⟨t3, h3, h⟩ := h
  rw [Option.bind_eq_some] at h
  obtain ⟨t4, h4, h5⟩ := h
  have e1 := expectStr_eq_append h1
  obtain ⟨w1, ew1⟩ := dropWS_exists_append t1
  have e2 := expectStr_eq_append h2
  obtain ⟨w2, ew2⟩ := dropWS_exists_append t2
  have e3 := expectStr_eq_append h3
  obtain ⟨w3, ew3⟩ := dropWS_exists_append t3
  have e4 := expectStr_eq_append h4
  obtain ⟨w4, ew4⟩ := dropWS_exists_append t4
  have e5 := expectStr_eq_append h5
  refine ⟨strL "catch" ++ w1 ++ ['('] ++ w2 ++ strL "_error" ++ w3 ++ [')'] ++ w4 ++ ['\x7b'], ?_⟩
  rw [e1, ew1, e2, ew2, e3, ew3, e4, ew4, e5]
  simp

theorem findSplit_decomp :
    ∀ {t pre hd rest : List Char},
      findSplit t = some (pre, hd, rest) → t = pre ++ hd ++ rest := by
  intro t
  induction t with
  | nil => intro pre hd rest h; simp [findSplit] at h
  | cons c t ih =>
    intro pre hd rest h
    unfold findSplit at h
    cases hm : matchHeader (c :: t) with
    | some r =>
      rw [hm] at h
      simp only [Option.some.injEq, Prod.mk.injEq] at h
      obtain ⟨hpre, hhd, hrest⟩ := h
      obtain ⟨hh, hheq⟩ := matchHeader_exists_append hm
      subst hpre hhd hrest
      conv_lhs => rw [hheq]
      rw [hheq]
      have hlen : (hh ++ r).length - r.length = hh.length := by simp
      rw [hlen, List.take_left]
      simp
    | none =>
      rw [hm] at h
      cases hf : findSplit t with
      | none => rw [hf] at h; simp at h
      | some pr =>
        obtain ⟨p1, p2, p3⟩ := pr
        rw [hf] at h
        simp only [Option.map_some', Option.some.injEq, Prod.mk.injEq] at h
        obtain ⟨hpre, hhd, hrest⟩ := h
        subst hpre hhd hrest
        have := ih hf
        simp [this]

theorem splitCatchAux_decomp :
    ∀ (n : Nat) (t : List Char),
      t = (splitCatchAux n t).1 ++
        ((splitCatchAux n t).2.map fun b => b.1 ++ b.2).flatten := by
  intro n
  induction n with
  | zero => intro t; simp [splitCatchAux]
  | succ n ih =>
    intro t
    unfold splitCatchAux
    cases hf : findSplit t with
    | none => simp
    | some pr =>
      obtain ⟨pre, hd, rest⟩ := pr
      have hde := findSplit_decomp hf
      have hrest := ih rest
      simp only []
      rw [hde]
      conv_lhs => rw [hrest]
      simp

theorem fixedBody_nil : fixedBody [] = [] := rfl

theorem processPart_fst (p : List Char) :
    (processPart p).1 = canonHeader ++ fixedBody (bodyOf p) ++ restOf p := by
  unfold processPart bodyOf restOf
  by_cases h : endPos p > 0
  · simp [h]
  · have h0 : endPos p = 0 := by omega
    simp [h, h0, fixedBody_nil]

theorem splitCatchFull_decomp (t : List Char) :
    t = (splitCatchFull t).1 ++
      ((splitCatchFull t).2.map fun b => b.1 ++ b.2).flatten :=
  splitCatchAux_decomp t.length t

theorem rewriteCore_fst (content : List Char) :
    (rewriteCore content).1 =
      (splitCatchFull content).1 ++
        (((splitCatchFull content).2).map fun b =>
          canonHeader ++ fixedBody (bodyOf b.2) ++ restOf b.2).flatten := by
  unfold rewriteCore
  cases hbs : (splitCatchFull content).2 with
  | nil =>
    have hc := splitCatchFull_decomp content
    rw [hbs] at hc
    simp only [List.map_nil, List.flatten_nil, List.append_nil] at hc
    simp only [hbs, List.isEmpty_nil, if_true, List.map_nil, List.flatten_nil,
      List.append_nil]
    exact hc
  | cons b bs =>
    simp [hbs, processPart_fst]

/-- C1 (scope isolation): the input document decomposes as the preamble,
then for each matched block its original header and its part, the parts
being left verbatim between body ends and the next header; the output of
the rewrite is obtained from exactly this decomposition by keeping the
preamble and every `restOf` segment (the text from each block's closing
brace up to the next header, where every outside reference to `error`
lives) byte-for-byte, and applying the five rules (`fixedBody`) only to
the `bodyOf` spans. -/
theorem c1_scope_isolation (content : List Char) :
    content =
      (splitCatchFull content).1 ++
        (((splitCatchFull content).2).map fun b => b.1 ++ b.2).flatten
    ∧ (((splitCatchFull content).2).map fun b => bodyOf b.2 ++ restOf b.2) =
        (((splitCatchFull content).2).map fun b => b.2)
    ∧ (rewriteCore content).1 =
      (splitCatchFull content).1 ++
        (((splitCatchFull content).2).map fun b =>
          canonHeader ++ fixedBody (bodyOf b.2) ++ restOf b.2).flatten := by
  refine ⟨splitCatchFull_decomp content, ?_, rewriteCore_fst content⟩
  have h : ∀ p : List Char, bodyOf p ++ restOf p = p := by
    intro p; exact List.take_append_drop _ p
  simp [h]

/-- C3 counterexample: for the input `catch(_error) {x}` the single matched
body `x` is unchanged by the five rules, yet the output differs from the
input, because the original header `catch(_error) {` is not reproduced
byte-for-byte (it is replaced by the canonical `catch (_error) {`). -/
theorem c3_counterexample :
    fixedBody (strL "x") = strL "x" ∧
    (rewriteCore (strL "catch(_error) \x7bx\x7d")).1 ≠
      strL "catch(_error) \x7bx\x7d" := by
  exact ⟨rfl, by decide⟩

/-- C3 (amended): the output is obtained by replacing each matched body
span with its rewritten form and each matched header with the canonical
text `catch (_error) {`; all text outside headers and body spans — the
preamble and each block's tail from its closing brace on — is reproduced
byte-for-byte. -/
theorem c3_frame_amended (content : List Char) :
    content =
      (splitCatchFull content).1 ++
        (((splitCatchFull content).2).map fun b =>
          b.1 ++ (bodyOf b.2 ++ restOf b.2)).flatten
    ∧ (rewriteCore content).1 =
      (splitCatchFull content).1 ++
        (((splitCatchFull content).2).map fun b =>
          canonHeader ++ fixedBody (bodyOf b.2) ++ restOf b.2).flatten := by
  refine ⟨?_, rewriteCore_fst content⟩
  have h : ∀ p : List Char, bodyOf p ++ restOf p = p := by
    intro p; exact List.take_append_drop _ p
  simp only [h]
  exact splitCatchFull_decomp content

theorem braceDepth_nil (d : Nat) : braceDepth d [] = (d : Int) := by
  simp [braceDepth]

theorem braceDepth_cons (d : Nat) (c : Char) (l : List Char) :
    braceDepth d (c :: l) = braceStep c + braceDepth d l := by
  simp [braceDepth]; ring

theorem findClose_iff :
    ∀ (t : List Char) (d : Nat), 0 < d → ∀ (j : Nat),
      (findClose t d = some j ↔
        j < t.length ∧ t[j]? = some '\x7d' ∧
          braceDepth d (t.take (j + 1)) = 0 ∧
          ∀ i, i < j → braceDepth d (t.take (i + 1)) ≠ 0) := by
  intro t
  induction t with
  | nil =>
    intro d hd j
    simp [findClose]
  | cons c t ih =>
    intro d hd j
    have hstep : braceStep c = 1 ∨ braceStep c = -1 ∨ braceStep c = 0 := by
      unfold braceStep
      by_cases h1 : c = '\x7b' <;> by_cases h2 : c = '\x7d' <;> simp [h1, h2]
    cases j with
    | zero =>
      constructor
      · intro h
        unfold findClose at h
        by_cases h1 : c = '\x7b'
        · rw [if_pos h1] at h
          rw [Option.map_eq_some'] at h
          obtain ⟨a, _, ha⟩ := h
          omega
        · by_cases h2 : c = '\x7d'
          · rw [if_neg h1, if_pos h2] at h
            by_cases h3 : d = 1
            · refine ⟨by simp, by simp [h2], ?_, by omega⟩
              simp [List.take_succ_cons, braceDepth_cons, braceDepth_nil,
                braceStep, h2, h3]
            · rw [if_neg h3] at h
              rw [Option.map_eq_some'] at h
              obtain ⟨a, _, ha⟩ := h
              omega
          · rw [if_neg h1, if_neg h2] at h
            rw [Option.map_eq_some'] at h
            obtain ⟨a, _, ha⟩ := h
            omega
      · rintro ⟨_, hc, hdep, _⟩
        simp at hc
        subst hc
        simp only [List.take_succ_cons, List.take_zero, braceDepth_cons,
          braceDepth_nil] at hdep
        have hd1 : d = 1 := by
          have : braceStep '\x7d' = -1 := by simp [braceStep]
          omega
        unfold findClose
        simp [hd1, braceStep] at hdep ⊢
    | succ jj =>
      have hshift :
          (∀ i, i < jj + 1 → braceDepth d ((c :: t).take (i + 1)) ≠ 0) ↔
          (braceStep c + (d : Int) ≠ 0 ∧
            ∀ i, i < jj → braceStep c + braceDepth d (t.take (i + 1)) ≠ 0) := by
        constructor
        · intro h
          constructor
          · have := h 0 (by omega)
            simpa [List.take_succ_cons, braceDepth_cons, braceDepth_nil]
              using this
          · intro i hi
            have := h (i + 1) (by omega)
            simpa [List.take_succ_cons, braceDepth_cons] using this
        · rintro ⟨h0, h⟩ i hi
          cases i with
          | zero =>
            simpa [List.take_succ_cons, braceDepth_cons, braceDepth_nil]
              using h0
          | succ ii =>
            have := h ii (by omega)
            simpa [List.take_succ_cons, braceDepth_cons] using this
      by_cases h1 : c = '\x7b'
      · have hs : braceStep c = 1 := by simp [braceStep, h1]
        have hrec := ih (d + 1) (by omega) jj
        constructor
        · intro h
          unfold findClose at h
          rw [if_pos h1, Option.map_eq_some'] at h
          obtain ⟨a, ha, haj⟩ := h
          have haj2 : a = jj := by omega
          subst haj2
          obtain ⟨hl, hg, hdep, hmin⟩ := hrec.mp ha
          refine ⟨by simpa using hl, by simpa using hg, ?_, ?_⟩
          · simp only [List.take_succ_cons, braceDepth_cons]
            unfold braceDepth at hdep ⊢
            push_cast at hdep ⊢
            omega
          · rw [hshift]
            constructor
            · omega
            · intro i hi
              have := hmin i hi
              unfold braceDepth at this ⊢
              push_cast at this ⊢
              omega
        · rintro ⟨hl, hg, hdep, hmin⟩
          unfold findClose
          rw [if_pos h1, Option.map_eq_some']
          refine ⟨jj, ?_, by omega⟩
          rw [hrec]
          rw [hshift] at hmin
          obtain ⟨h0, hmin⟩ := hmin
          refine ⟨by simpa using hl, by simpa using hg, ?_, ?_⟩
          · simp only [List.take_succ_cons, braceDepth_cons] at hdep
            unfold braceDepth at hdep ⊢
            push_cast at hdep ⊢
            omega
          · intro i hi
            have := hmin i hi
            unfold braceDepth at this ⊢
            push_cast at this ⊢
            omega
      · by_cases h2 : c = '\x7d'
        · have hs : braceStep c = -1 := by simp [braceStep, h1, h2]
          by_cases h3 : d = 1
          · subst h3
            constructor
            · intro h
              unfold findClose at h
              rw [if_neg h1, if_pos h2, if_pos rfl] at h
              simp at h
            · rintro ⟨hl, hg, hdep, hmin⟩
              rw [hshift] at hmin
              obtain ⟨h0, _⟩ := hmin
              omega
          · have hrec := ih (d - 1) (by omega) jj
            have hcast : ((d - 1 : Nat) : Int) = (d : Int) - 1 := by omega
            constructor
            · intro h
              unfold findClose at h
              rw [if_neg h1, if_pos h2, if_neg h3, Option.map_eq_some'] at h
              obtain ⟨a, ha, haj⟩ := h
              have haj2 : a = jj := by omega
              subst haj2
              obtain ⟨hl, hg, hdep, hmin⟩ := hrec.mp ha
              refine ⟨by simpa using hl, by simpa using hg, ?_, ?_⟩
              · simp only [List.take_succ_cons, braceDepth_cons]
                unfold braceDepth at hdep ⊢
                omega
              · rw [hshift]
                constructor
                · omega
                · intro i hi
                  have := hmin i hi
                  unfold braceDepth at this ⊢
                  omega
            · rintro ⟨hl, hg, hdep, hmin⟩
              unfold findClose
              rw [if_neg h1, if_pos h2, if_neg h3, Option.map_eq_some']
              refine ⟨jj, ?_, by omega⟩
              rw [hrec]
              rw [hshift] at hmin
              obtain ⟨h0, hmin⟩ := hmin
              refine ⟨by simpa using hl, by simpa using hg, ?_, ?_⟩
              · simp only [List.take_succ_cons, braceDepth_cons] at hdep
                unfold braceDepth at hdep ⊢
                omega
              · intro i hi
                have := hmin i hi
                unfold braceDepth at this ⊢
                omega
        · have hs : braceStep c = 0 := by simp [braceStep, h1, h2]
          have hrec := ih d hd jj
          constructor
          · intro h
            unfold findClose at h
            rw [if_neg h1, if_neg h2, Option.map_eq_some'] at h
            obtain ⟨a, ha, haj⟩ := h
            have haj2 : a = jj := by omega
            subst haj2
            obtain ⟨hl, hg, hdep, hmin⟩ := hrec.mp ha
            refine ⟨by simpa using hl, by simpa using hg, ?_, ?_⟩
            · simp only [List.take_succ_cons, braceDepth_cons]
              omega
            · rw [hshift]
              constructor
              · have : 0 < d := hd
                omega
              · intro i hi
                have := hmin i hi
                omega
          · rintro ⟨hl, hg, hdep, hmin⟩
            unfold findClose
            rw [if_neg h1, if_neg h2, Option.map_eq_some']
            refine ⟨jj, ?_, by omega⟩
            rw [hrec]
            rw [hshift] at hmin
            obtain ⟨h0, hmin⟩ := hmin
            refine ⟨by simpa using hl, by simpa using hg, ?_, ?_⟩
            · simp only [List.take_succ_cons, braceDepth_cons] at hdep
              omega
            · intro i hi
              have := hmin i hi
              omega

/-- C9 (brace matcher): started at depth 1 just after an opening brace, the
scan returns `some j` exactly when `j` is the first position holding a `}`
at which the running depth (1 plus the sum of `+1` for `{` and `-1` for
`}`) reaches 0; on the concrete span ` try { x } catch (_error) { y } }`,
whose body contains a complete nested block with the identical header
pattern, it returns position 32, the outer closing brace (the last
character), not an inner one. -/
theorem c9_brace_matcher (t : List Char) (j : Nat) :
    (findClose t 1 = some j ↔
      j < t.length ∧ t[j]? = some '\x7d' ∧
        braceDepth 1 (t.take (j + 1)) = 0 ∧
        ∀ i, i < j → braceDepth 1 (t.take (i + 1)) ≠ 0)
    ∧ findClose (strL " try \x7b x \x7d catch (_error) \x7b y \x7d \x7d") 1 =
        some 32 :=
  ⟨findClose_iff t 1 (by omega) j, by decide⟩

theorem c9_brace_matcher_witness : findClose (strL "ab\x7d") 1 = some 2 :=
  (c9_brace_matcher (strL "ab\x7d") 2).1.mpr (by decide)

/-- C2 counterexample: for the document `catch(_error) { x` the matched
block is unterminated (the brace scan finds no closing brace), yet the
operation does not fail: it writes output for the file — the text with the
header normalised to `catch (_error) {` — contradicting the claim that no
output is written for a document with an unterminated block. -/
theorem c2_counterexample :
    findClose (strL " x") 1 = none ∧
    (fix_error_references (strL "catch(_error) \x7b x")).2.2 = true ∧
    (fix_error_references (strL "catch(_error) \x7b x")).1 =
      strL "catch (_error) \x7b x" := by
  exact ⟨by decide, by decide, by decide⟩

/-- C2 (amended): an unterminated matched block is not an error: the part
after the header is appended verbatim after the canonical header, with a
change count of 0 (lines 66–68); in particular on scenario D, whose header
is already canonical, the assembled text equals the input, so nothing is
written and 0 is returned — the operation never fails or reports an
unterminated block. -/
theorem c2_unterminated_amended :
    (∀ p : List Char, findClose p 1 = none →
        processPart p = (canonHeader ++ p, 0))
    ∧ fix_error_references scenarioD = (scenarioD, 0, false) := by
  constructor
  · intro p h
    have he : endPos p = 0 := by unfold endPos; rw [h]; rfl
    unfold processPart
    simp [he]
  · decide

theorem c2_unterminated_amended_witness :
    processPart (strL " x") = (canonHeader ++ strL " x", 0) :=
  c2_unterminated_amended.1 (strL " x") (by decide)

/-- C4 counterexample: on an input where both bodies contain candidate
references, the outer body's direct reference `error.x;` is NOT rewritten
and the change count is 1, not 2: the split consumes the inner header, so
the outer part's braces balance out, the brace scan fails, and the outer
body is emitted verbatim. -/
theorem c4_counterexample :
    (rewriteCore scenarioB2).2 = 1 ∧
    (rewriteCore scenarioB2).1 =
      strL "catch (_error) \x7b error.x; try \x7b d(); \x7d catch (_error) \x7b throw _error; \x7d \x7d" := by
  exact ⟨by decide, by decide⟩

/-- C4 (amended): for the scenario B input only the inner `throw error;`
is rewritten, to `throw _error;`, and the change count is 1; an outer
body's own direct references are never rewritten in the presence of a
nested same-keyword block (see the counterexample), so the count is 1, not
2, even when both bodies contain rewritable references. -/
theorem c4_nested_amended :
    rewriteCore scenarioB =
      (strL "catch (_error) \x7b try \x7b doX(); \x7d catch (_error) \x7b throw _error; \x7d \x7d",
       1) := by
  decide

/-- C5 counterexample: applying the rewrite to its own output does not
always reproduce it: for `catch (_error) { catch(error){ } }` the first
pass rewrites the body to `catch(_error){ } ` (rule 2), creating a new,
non-canonical header occurrence, and the second pass normalises it, so the
second output differs from the first. -/
theorem c5_counterexample :
    (rewriteCore (rewriteCore docHeaderCreating).1).1 ≠
      (rewriteCore docHeaderCreating).1 := by
  decide

/-- C5 (amended): a second application always reports the scenarios'
behaviour only case-by-case: on scenarios A, B and C the second
application returns the same text with a count of 0, but in general a
second pass can still change the text — on `docHeaderCreating` the first
pass creates a new header occurrence, and the second pass normalises that
header while nevertheless reporting a change count of 0. -/
theorem c5_idempotence_amended :
    ((rewriteCore (rewriteCore scenarioA).1).1 = (rewriteCore scenarioA).1 ∧
      (rewriteCore (rewriteCore scenarioA).1).2 = 0)
    ∧ ((rewriteCore (rewriteCore scenarioB).1).1 = (rewriteCore scenarioB).1 ∧
      (rewriteCore (rewriteCore scenarioB).1).2 = 0)
    ∧ ((rewriteCore (rewriteCore scenarioC).1).1 = (rewriteCore scenarioC).1 ∧
      (rewriteCore (rewriteCore scenarioC).1).2 = 0)
    ∧ (rewriteCore (rewriteCore docHeaderCreating).1).2 = 0
    ∧ (rewriteCore (rewriteCore docHeaderCreating).1).1 =
        strL "catch (_error) \x7b catch (_error) \x7b \x7d \x7d" := by
  refine ⟨⟨by decide, by decide⟩, ⟨by decide, by decide⟩,
    ⟨by decide, by decide⟩, by decide, by decide⟩

/-- C6 counterexample: for `catch(_error) {x}` the matched body `x` is
unchanged by the rules, so `blocks_changed = 0`, yet a write is performed
(and 0 returned), because normalising the header `catch(_error) {` makes
the assembled text differ from the original — contradicting "a write
occurs only when blocks_changed > 0". -/
theorem c6_counterexample :
    (fix_error_references (strL "catch(_error) \x7bx\x7d")).2.2 = true ∧
    (fix_error_references (strL "catch(_error) \x7bx\x7d")).2.1 = 0 := by
  exact ⟨by decide, by decide⟩

/-- C6 (amended): a document with zero matches is returned unchanged with
count 0 and no write; in general a write is performed exactly when the
assembled text differs from the original — which can happen with
`blocks_changed = 0`, through header normalisation alone. -/
theorem c6_write_gating_amended :
    (∀ content : List Char, (splitCatchFull content).2 = [] →
        fix_error_references content = (content, 0, false))
    ∧ ∀ content : List Char,
        ((fix_error_references content).2.2 = true ↔
          (rewriteCore content).1 ≠ content) := by
  constructor
  · intro content h
    unfold fix_error_references rewriteCore
    simp [h]
  · intro content
    unfold fix_error_references
    by_cases h : (rewriteCore content).1 ≠ content
    · simp [h]
    · simp [h]

theorem c6_write_gating_amended_witness :
    fix_error_references (strL "hello") = (strL "hello", 0, false) :=
  c6_write_gating_amended.1 (strL "hello") (by decide)

/-- C7 (rule order): the body rewriter is exactly the sequential
composition of the five rules in their fixed order — folding the ordered
rule list over the body — and sequential composition means each appended
rule operates on the text produced by all earlier rules, so substitutions
made by an earlier rule are visible to later rules. -/
theorem c7_rule_order :
    (∀ b : List Char, fixedBody b = applyRules ruleFns b)
    ∧ ∀ (rs : List (List Char → List Char)) (r : List Char → List Char)
        (b : List Char), applyRules (rs ++ [r]) b = r (applyRules rs b) := by
  constructor
  · intro b; rfl
  · intro rs r b
    simp [applyRules, List.foldl_append]

theorem strL_throw_rev : (strL "throw ").reverse = [' ', 'w', 'o', 'r', 'h', 't'] := rfl

theorem strL_return_rev :
    (strL "return ").reverse = [' ', 'n', 'r', 'u', 't', 'e', 'r'] := rfl

theorem renx_refl : ∀ (s rp : List Char), RenX rp s s := by
  intro s
  induction s with
  | nil => intro rp; exact RenX.nil rp
  | cons c t ih => intro rp; exact RenX.copy rp c t t (ih (c :: rp))

/-- Copying a common context on both sides of a derivation. -/
theorem renx_copies (ctx : List Char) :
    ∀ (rp t u : List Char), RenX (ctx.reverse ++ rp) t u →
      RenX rp (ctx ++ t) (ctx ++ u) := by
  induction ctx with
  | nil => intro rp t u h; simpa using h
  | cons c ctx ih =>
    intro rp t u h
    refine RenX.copy rp c (ctx ++ t) (ctx ++ u) (ih (c :: rp) t u ?_)
    have he : (c :: ctx).reverse ++ rp = ctx.reverse ++ (c :: rp) := by simp
    rw [← he]
    exact h

theorem shapeOk_not_underscore (rp s : List Char) : ¬ shapeOk ('_' :: rp) s := by
  intro h
  rcases h with ⟨h1, _⟩ | ⟨h1, _⟩ | ⟨h1, _⟩ | ⟨h1, _⟩ | ⟨h1, _⟩
  · simp [prevNonWord, isWordChar] at h1
  · simp at h1
  · simp [List.isPrefixOf] at h1
  · rw [strL_throw_rev] at h1
    simp [List.isPrefixOf] at h1
  · rw [strL_return_rev] at h1
    simp [List.isPrefixOf] at h1

theorem shapeOk_nonword {rp s : List Char} (h : shapeOk rp s) :
    prevNonWord rp.head? = true := by
  rcases h with ⟨h1, _⟩ | ⟨h1, _⟩ | ⟨h1, _⟩ | ⟨h1, _⟩ | ⟨h1, _⟩
  · exact h1
  · rw [h1]
    decide
  · have h2 := isPrefixOf_eq_append h1
    have h3 : rp.head? = some ' ' := by rw [h2]; rfl
    rw [h3]
    decide
  · rw [strL_throw_rev] at h1
    have h2 := isPrefixOf_eq_append h1
    have h3 : rp.head? = some ' ' := by rw [h2]; rfl
    rw [h3]
    decide
  · rw [strL_return_rev] at h1
    have h2 := isPrefixOf_eq_append h1
    have h3 : rp.head? = some ' ' := by rw [h2]; rfl
    rw [h3]
    decide

/-- Coarsening: the exact relation implies the non-word-boundary
insertion-only relation. -/
theorem renx_insnw : ∀ {rp a b : List Char}, RenX rp a b → InsNW rp.head? a b := by
  intro rp a b h
  induction h with
  | nil rp => exact InsNW.nil _
  | copy rp c t u _ ih => exact InsNW.copy _ c t u ih
  | ins rp t u hsh _ ih => exact InsNW.ins _ t u (shapeOk_nonword hsh) ih

theorem isPrefixOf_exists {p t : List Char} (h : p.isPrefixOf t = true) :
    ∃ u, t = p ++ u :=
  ⟨t.drop p.length, isPrefixOf_eq_append h⟩

theorem strL_errdot : strL "error." = ['e', 'r', 'r', 'o', 'r', '.'] := rfl

theorem strL_uerrdot :
    strL "_error." = ['_', 'e', 'r', 'r', 'o', 'r', '.'] := rfl

theorem strL_paren :
    strL "(error)" = ['(', 'e', 'r', 'r', 'o', 'r', ')'] := rfl

theorem strL_uparen :
    strL "(_error)" = ['(', '_', 'e', 'r', 'r', 'o', 'r', ')'] := rfl

theorem strL_comma :
    strL ", error)" = [',', ' ', 'e', 'r', 'r', 'o', 'r', ')'] := rfl

theorem strL_ucomma :
    strL ", _error)" = [',', ' ', '_', 'e', 'r', 'r', 'o', 'r', ')'] := rfl

theorem strL_throwp :
    strL "throw error;" =
      ['t', 'h', 'r', 'o', 'w', ' ', 'e', 'r', 'r', 'o', 'r', ';'] := rfl

theorem strL_uthrowp :
    strL "throw _error;" =
      ['t', 'h', 'r', 'o', 'w', ' ', '_', 'e', 'r', 'r', 'o', 'r', ';'] := rfl

theorem strL_retp :
    strL "return error;" =
      ['r', 'e', 't', 'u', 'r', 'n', ' ', 'e', 'r', 'r', 'o', 'r', ';'] := rfl

theorem strL_uretp :
    strL "return _error;" =
      ['r', 'e', 't', 'u', 'r', 'n', ' ', '_', 'e', 'r', 'r', 'o', 'r', ';'] :=
  rfl

theorem renx_subMemberAux :
    ∀ (n : Nat) (s rp : List Char), RenX rp s (subMemberAux n rp.head? s) := by
  intro n
  induction n with
  | zero => intro s rp; exact renx_refl s rp
  | succ n ih =>
    intro s rp
    cases s with
    | nil => exact RenX.nil rp
    | cons c t =>
      by_cases hcond :
          (prevNonWord rp.head? = true ∧
            (strL "error.").isPrefixOf (c :: t) = true)
      · obtain ⟨hpw, hpre⟩ := hcond
        obtain ⟨u, hu⟩ := isPrefixOf_exists hpre
        rw [strL_errdot] at hu
        simp only [List.cons_append, List.nil_append, List.cons.injEq] at hu
        obtain ⟨hc, ht⟩ := hu
        subst hc
        subst ht
        have hstep :
            subMemberAux (n + 1) rp.head?
                ('e' :: 'r' :: 'r' :: 'o' :: 'r' :: '.' :: u) =
              '_' :: 'e' :: 'r' :: 'r' :: 'o' :: 'r' :: '.' ::
                subMemberAux n (some '.') u := by
          rw [subMemberAux, if_pos ⟨hpw, hpre⟩]
          simp [strL_uerrdot]
        rw [hstep]
        refine RenX.ins rp ('.' :: u) ('.' :: subMemberAux n (some '.') u)
          (Or.inl ⟨hpw, rfl⟩) ?_
        refine RenX.copy _ '.' _ _ ?_
        exact ih u ('.' :: 'r' :: 'o' :: 'r' :: 'r' :: 'e' :: rp)
      · have hstep :
            subMemberAux (n + 1) rp.head? (c :: t) =
              c :: subMemberAux n (some c) t := by
          rw [subMemberAux, if_neg hcond]
        rw [hstep]
        exact RenX.copy rp c t _ (ih t (c :: rp))

theorem renx_subParenAux :
    ∀ (n : Nat) (s rp : List Char),
      RenX rp s (subLitAux (strL "(error)") (strL "(_error)") n s) := by
  intro n
  induction n with
  | zero => intro s rp; exact renx_refl s rp
  | succ n ih =>
    intro s rp
    cases s with
    | nil => exact RenX.nil rp
    | cons c t =>
      by_cases hpre : (strL "(error)").isPrefixOf (c :: t) = true
      · obtain ⟨u, hu⟩ := isPrefixOf_exists hpre
        rw [strL_paren] at hu
        simp only [List.cons_append, List.nil_append, List.cons.injEq] at hu
        obtain ⟨hc, ht⟩ := hu
        subst hc
        subst ht
        have hstep :
            subLitAux (strL "(error)") (strL "(_error)") (n + 1)
                ('(' :: 'e' :: 'r' :: 'r' :: 'o' :: 'r' :: ')' :: u) =
              '(' :: '_' :: 'e' :: 'r' :: 'r' :: 'o' :: 'r' :: ')' ::
                subLitAux (strL "(error)") (strL "(_error)") n u := by
          rw [subLitAux, if_pos hpre]
          simp [strL_uparen, strL_paren]
        rw [hstep]
        refine RenX.copy rp '(' _ _ ?_
        refine RenX.ins ('(' :: rp) (')' :: u)
          (')' :: subLitAux (strL "(error)") (strL "(_error)") n u)
          (Or.inr (Or.inl ⟨rfl, rfl⟩)) ?_
        refine RenX.copy _ ')' _ _ ?_
        exact ih u _
      · have hstep :
            subLitAux (strL "(error)") (strL "(_error)") (n + 1) (c :: t) =
              c :: subLitAux (strL "(error)") (strL "(_error)") n t := by
          rw [subLitAux, if_neg hpre]
        rw [hstep]
        exact RenX.copy rp c t _ (ih t (c :: rp))

theorem renx_subCommaAux :
    ∀ (n : Nat) (s rp : List Char),
      RenX rp s (subLitAux (strL ", error)") (strL ", _error)") n s) := by
  intro n
  induction n with
  | zero => intro s rp; exact renx_refl s rp
  | succ n ih =>
    intro s rp
    cases s with
    | nil => exact RenX.nil rp
    | cons c t =>
      by_cases hpre : (strL ", error)").isPrefixOf (c :: t) = true
      · obtain ⟨u, hu⟩ := isPrefixOf_exists hpre
        rw [strL_comma] at hu
        simp only [List.cons_append, List.nil_append, List.cons.injEq] at hu
        obtain ⟨hc, ht⟩ := hu
        subst hc
        subst ht
        have hstep :
            subLitAux (strL ", error)") (strL ", _error)") (n + 1)
                (',' :: ' ' :: 'e' :: 'r' :: 'r' :: 'o' :: 'r' :: ')' :: u) =
              ',' :: ' ' :: '_' :: 'e' :: 'r' :: 'r' :: 'o' :: 'r' :: ')' ::
                subLitAux (strL ", error)") (strL ", _error)") n u := by
          rw [subLitAux, if_pos hpre]
          simp [strL_ucomma, strL_comma]
        rw [hstep]
        refine RenX.copy rp ',' _ _ ?_
        refine RenX.copy (',' :: rp) ' ' _ _ ?_
        refine RenX.ins (' ' :: ',' :: rp) (')' :: u)
          (')' :: subLitAux (strL ", error)") (strL ", _error)") n u)
          (Or.inr (Or.inr (Or.inl ⟨by simp [List.isPrefixOf], rfl⟩))) ?_
        refine RenX.copy _ ')' _ _ ?_
        exact ih u _
      · have hstep :
            subLitAux (strL ", error)") (strL ", _error)") (n + 1) (c :: t) =
              c :: subLitAux (strL ", error)") (strL ", _error)") n t := by
          rw [subLitAux, if_neg hpre]
        rw [hstep]
        exact RenX.copy rp c t _ (ih t (c :: rp))

theorem renx_subThrowAux :
    ∀ (n : Nat) (s rp : List Char),
      RenX rp s (subLitAux (strL "throw error;") (strL "throw _error;") n s) := by
  intro n
  induction n with
  | zero => intro s rp; exact renx_refl s rp
  | succ n ih =>
    intro s rp
    cases s with
    | nil => exact RenX.nil rp
    | cons c t =>
      by_cases hpre : (strL "throw error;").isPrefixOf (c :: t) = true
      · obtain ⟨u, hu⟩ := isPrefixOf_exists hpre
        rw [strL_throwp] at hu
        simp only [List.cons_append, List.nil_append, List.cons.injEq] at hu
        obtain ⟨hc, ht⟩ := hu
        subst hc
        subst ht
        have hstep :
            subLitAux (strL "throw error;") (strL "throw _error;") (n + 1)
                ('t' :: 'h' :: 'r' :: 'o' :: 'w' :: ' ' ::
                  'e' :: 'r' :: 'r' :: 'o' :: 'r' :: ';' :: u) =
              't' :: 'h' :: 'r' :: 'o' :: 'w' :: ' ' ::
                '_' :: 'e' :: 'r' :: 'r' :: 'o' :: 'r' :: ';' ::
                subLitAux (strL "throw error;") (strL "throw _error;") n u := by
          rw [subLitAux, if_pos hpre]
          simp [strL_uthrowp, strL_throwp]
        rw [hstep]
        refine renx_copies ['t', 'h', 'r', 'o', 'w', ' '] rp _ _ ?_
        refine RenX.ins _ (';' :: u)
          (';' :: subLitAux (strL "throw error;") (strL "throw _error;") n u)
          (Or.inr (Or.inr (Or.inr (Or.inl
            ⟨by rw [strL_throw_rev]; simp [List.isPrefixOf], rfl⟩))))
          ?_
        refine RenX.copy _ ';' _ _ ?_
        exact ih u _
      · have hstep :
            subLitAux (strL "throw error;") (strL "throw _error;") (n + 1)
                (c :: t) =
              c :: subLitAux (strL "throw error;") (strL "throw _error;") n t := by
          rw [subLitAux, if_neg hpre]
        rw [hstep]
        exact RenX.copy rp c t _ (ih t (c :: rp))

theorem renx_subRetAux :
    ∀ (n : Nat) (s rp : List Char),
      RenX rp s (subLitAux (strL "return error;") (strL "return _error;") n s) := by
  intro n
  induction n with
  | zero => intro s rp; exact renx_refl s rp
  | succ n ih =>
    intro s rp
    cases s with
    | nil => exact RenX.nil rp
    | cons c t =>
      by_cases hpre : (strL "return error;").isPrefixOf (c :: t) = true
      · obtain ⟨u, hu⟩ := isPrefixOf_exists hpre
        rw [strL_retp] at hu
        simp only [List.cons_append, List.nil_append, List.cons.injEq] at hu
        obtain ⟨hc, ht⟩ := hu
        subst hc
        subst ht
        have hstep :
            subLitAux (strL "return error;") (strL "return _error;") (n + 1)
                ('r' :: 'e' :: 't' :: 'u' :: 'r' :: 'n' :: ' ' ::
                  'e' :: 'r' :: 'r' :: 'o' :: 'r' :: ';' :: u) =
              'r' :: 'e' :: 't' :: 'u' :: 'r' :: 'n' :: ' ' ::
                '_' :: 'e' :: 'r' :: 'r' :: 'o' :: 'r' :: ';' ::
                subLitAux (strL "return error;") (strL "return _error;") n u := by
          rw [subLitAux, if_pos hpre]
          simp [strL_uretp, strL_retp]
        rw [hstep]
        refine renx_copies ['r', 'e', 't', 'u', 'r', 'n', ' '] rp _ _ ?_
        refine RenX.ins _ (';' :: u)
          (';' :: subLitAux (strL "return error;") (strL "return _error;") n u)
          (Or.inr (Or.inr (Or.inr (Or.inr
            ⟨by rw [strL_return_rev]; simp [List.isPrefixOf], rfl⟩))))
          ?_
        refine RenX.copy _ ';' _ _ ?_
        exact ih u _
      · have hstep :
            subLitAux (strL "return error;") (strL "return _error;") (n + 1)
                (c :: t) =
              c :: subLitAux (strL "return error;") (strL "return _error;") n t := by
          rw [subLitAux, if_neg hpre]
        rw [hstep]
        exact RenX.copy rp c t _ (ih t (c :: rp))

theorem insd_refl : ∀ a : List Char, Insd a a := by
  intro a
  induction a with
  | nil => exact Insd.nil
  | cons c a ih => exact Insd.cons c a a ih

theorem insd_nil_right {a : List Char} (h : Insd a []) : a = [] := by
  cases h
  rfl

theorem insd_head {a b : List Char} {c : Char} (h : Insd a (c :: b))
    (hc : c ≠ '_') : ∃ a0, a = c :: a0 ∧ Insd a0 b := by
  cases h with
  | cons _ a0 _ h0 => exact ⟨a0, rfl, h0⟩
  | ins _ _ h0 => exact absurd rfl hc

theorem insd_append :
    ∀ (x : List Char), '_' ∉ x →
      ∀ {a b0 : List Char}, Insd a (x ++ b0) →
        ∃ a0, a = x ++ a0 ∧ Insd a0 b0 := by
  intro x
  induction x with
  | nil => intro _ a b0 h; exact ⟨a, rfl, h⟩
  | cons c x ih =>
    intro hni a b0 h
    have hc : c ≠ '_' := by
      intro hh
      exact hni (by rw [hh]; exact List.mem_cons_self _ _)
    obtain ⟨a1, ha1, h1⟩ := insd_head h hc
    have hni2 : '_' ∉ x := fun hm => hni (List.mem_cons_of_mem _ hm)
    obtain ⟨a0, ha0, h0⟩ := ih hni2 h1
    exact ⟨a0, by rw [ha1, ha0]; rfl, h0⟩

theorem renx_nil_right {rp a : List Char} (h : RenX rp a []) : a = [] := by
  cases h
  rfl

theorem renx_nil_left {rp c : List Char} (h : RenX rp [] c) : c = [] := by
  cases h
  rfl

theorem renx_head_eq {rp a b : List Char} (h : RenX rp a b) :
    ∀ c : Char, c ≠ '_' → b.head? = some c → a.head? = some c := by
  intro c hc hb
  cases h with
  | nil => simp at hb
  | copy _ c0 t u _ =>
    simp at hb
    simp [hb]
  | ins _ t u _ _ =>
    simp at hb
    exact absurd hb.symm hc

/-- Transfer of a rule-shape context across inserted `_` characters and an
insertion-only tail relation. -/
theorem shapeOk_transfer {rpA rpB u v : List Char} (hins : Insd rpA rpB)
    (hhd : ∀ c : Char, c ≠ '_' → v.head? = some c → u.head? = some c)
    (h : shapeOk rpB v) : shapeOk rpA u := by
  rcases h with ⟨h1, h2⟩ | ⟨h1, h2⟩ | ⟨h1, h2⟩ | ⟨h1, h2⟩ | ⟨h1, h2⟩
  · refine Or.inl ⟨?_, hhd '.' (by decide) h2⟩
    cases rpB with
    | nil =>
      rw [insd_nil_right hins]
      rfl
    | cons c0 rpB0 =>
      have hc0 : c0 ≠ '_' := by
        intro hh
        subst hh
        simp [prevNonWord, isWordChar] at h1
      obtain ⟨a0, ha0, _⟩ := insd_head hins hc0
      rw [ha0]
      simpa using h1
  · refine Or.inr (Or.inl ⟨?_, hhd ')' (by decide) h2⟩)
    obtain ⟨rpB0, rfl⟩ : ∃ rpB0, rpB = '(' :: rpB0 := by
      cases rpB with
      | nil => simp at h1
      | cons c0 rpB0 =>
        simp at h1
        exact ⟨rpB0, by rw [h1]⟩
    obtain ⟨a0, ha0, _⟩ := insd_head hins (by decide)
    rw [ha0]
    rfl
  · refine Or.inr (Or.inr (Or.inl ⟨?_, hhd ')' (by decide) h2⟩))
    obtain ⟨b0, hb0⟩ := isPrefixOf_exists h1
    rw [hb0] at hins
    obtain ⟨a0, ha0, _⟩ := insd_append [' ', ','] (by decide) hins
    rw [ha0]
    simp [List.isPrefixOf]
  · refine Or.inr (Or.inr (Or.inr (Or.inl ⟨?_, hhd ';' (by decide) h2⟩)))
    rw [strL_throw_rev] at h1 ⊢
    obtain ⟨b0, hb0⟩ := isPrefixOf_exists h1
    rw [hb0] at hins
    obtain ⟨a0, ha0, _⟩ :=
      insd_append [' ', 'w', 'o', 'r', 'h', 't'] (by decide) hins
    rw [ha0]
    simp [List.isPrefixOf]
  · refine Or.inr (Or.inr (Or.inr (Or.inr ⟨?_, hhd ';' (by decide) h2⟩)))
    rw [strL_return_rev] at h1 ⊢
    obtain ⟨b0, hb0⟩ := isPrefixOf_exists h1
    rw [hb0] at hins
    obtain ⟨a0, ha0, _⟩ :=
      insd_append [' ', 'n', 'r', 'u', 't', 'e', 'r'] (by decide) hins
    rw [ha0]
    simp [List.isPrefixOf]

/-- Composition: insertion-only derivations compose, with the left
contexts of the two passes related by `Insd` (the second pass sees the
first pass's inserted `_` characters, which can never enable a rule
shape). -/
theorem renx_comp :
    ∀ (N : Nat) (b : List Char), b.length ≤ N →
      ∀ (rpA rpB a c : List Char), Insd rpA rpB →
        RenX rpA a b → RenX rpB b c → RenX rpA a c := by
  intro N
  induction N with
  | zero =>
    intro b hb rpA rpB a c _ h1 h2
    have hb0 : b = [] := by
      cases b with
      | nil => rfl
      | cons x xs => simp at hb
    subst hb0
    have ha := renx_nil_right h1
    have hc := renx_nil_left h2
    subst ha
    subst hc
    exact RenX.nil rpA
  | succ N ih =>
    intro b hb rpA rpB a c hins h1 h2
    cases h2 with
    | nil =>
      have ha := renx_nil_right h1
      subst ha
      exact RenX.nil rpA
    | copy _ c0 t u hcont =>
      cases h1 with
      | copy _ _ t1 _ hcont1 =>
        refine RenX.copy rpA c0 t1 u ?_
        have hlen : t.length ≤ N := by
          simp at hb
          omega
        exact ih t hlen (c0 :: rpA) (c0 :: rpB) t1 u
          (Insd.cons c0 _ _ hins) hcont1 hcont
      | ins _ t1 u1 hsh1 hcont1 =>
        -- here c0 = '_' and t = 'e'::'r'::'r'::'o'::'r'::u1
        cases hcont with
        | ins _ _ _ hsh2 _ => exact absurd hsh2 (shapeOk_not_underscore _ _)
        | copy _ _ _ u2 hcont2 =>
          cases hcont2 with
          | copy _ _ _ u3 hcont3 =>
            cases hcont3 with
            | copy _ _ _ u4 hcont4 =>
              cases hcont4 with
              | copy _ _ _ u5 hcont5 =>
                cases hcont5 with
                | copy _ _ _ u6 hcont6 =>
                  have hlen : u1.length ≤ N := by
                    simp at hb
                    omega
                  have hinsd :
                      Insd ('r' :: 'o' :: 'r' :: 'r' :: 'e' :: rpA)
                        ('r' :: 'o' :: 'r' :: 'r' :: 'e' :: '_' :: rpB) :=
                    Insd.cons 'r' _ _ (Insd.cons 'o' _ _ (Insd.cons 'r' _ _
                      (Insd.cons 'r' _ _ (Insd.cons 'e' _ _
                        (Insd.ins _ _ hins)))))
                  exact RenX.ins rpA t1 u6 hsh1
                    (ih u1 hlen _ _ t1 u6 hinsd hcont1 hcont6)
    | ins _ t u hsh hcont =>
      -- b = 'e'::'r'::'r'::'o'::'r'::t
      cases h1 with
      | copy _ _ t1 _ hcont1 =>
        cases hcont1 with
        | copy _ _ t2 _ hcont2 =>
          cases hcont2 with
          | copy _ _ t3 _ hcont3 =>
            cases hcont3 with
            | copy _ _ t4 _ hcont4 =>
              cases hcont4 with
              | copy _ _ t5 _ hcont5 =>
                have hlen : t.length ≤ N := by
                  simp at hb
                  omega
                have hshA : shapeOk rpA t5 :=
                  shapeOk_transfer hins (renx_head_eq hcont5) hsh
                have hinsd :
                    Insd ('r' :: 'o' :: 'r' :: 'r' :: 'e' :: rpA)
                      ('r' :: 'o' :: 'r' :: 'r' :: 'e' :: rpB) :=
                  Insd.cons 'r' _ _ (Insd.cons 'o' _ _ (Insd.cons 'r' _ _
                    (Insd.cons 'r' _ _ (Insd.cons 'e' _ _ hins))))
                exact RenX.ins rpA t5 u hshA
                  (ih t hlen _ _ t5 u hinsd hcont5 hcont)

/-- Transitivity at the empty left context. -/
theorem renx_trans {a b c : List Char} (h1 : RenX [] a b)
    (h2 : RenX [] b c) : RenX [] a c :=
  renx_comp b.length b le_rfl [] [] a c Insd.nil h1 h2

/-- The full body rewriter only inserts `_` at rule-shape occurrences of
`error`. -/
theorem fixedBody_renx (b : List Char) : RenX [] b (fixedBody b) := by
  have h1 : RenX [] b (subMember b) :=
    renx_subMemberAux b.length b []
  have h2 : RenX [] (subMember b) (subParen (subMember b)) :=
    renx_subParenAux (subMember b).length (subMember b) []
  have h3 := renx_trans h1 h2
  have h4 :
      RenX [] (subParen (subMember b))
        (subComma (subParen (subMember b))) :=
    renx_subCommaAux (subParen (subMember b)).length _ []
  have h5 := renx_trans h3 h4
  have h6 :
      RenX [] (subComma (subParen (subMember b)))
        (subThrow (subComma (subParen (subMember b)))) :=
    renx_subThrowAux (subComma (subParen (subMember b))).length _ []
  have h7 := renx_trans h5 h6
  have h8 :
      RenX [] (subThrow (subComma (subParen (subMember b))))
        (subRet (subThrow (subComma (subParen (subMember b))))) :=
    renx_subRetAux (subThrow (subComma (subParen (subMember b)))).length _ []
  exact renx_trans h7 h8

/-- C8 (the new identifier is never rewritten): for every body, the
rewriter's output is related to its input by `InsNW none`: it is produced
by copying the input verbatim, inserting `_` only immediately before
occurrences of `error` whose preceding character is absent or a non-word
character.  The `error` inside an occurrence of `_error` is preceded by
`_`, a word character, so no rule ever matches there, and every occurrence
of `_error` in the input is copied unchanged; concretely, a body whose
only identifier occurrences are `_error` is returned verbatim. -/
theorem c8_new_identifier_never_rewritten :
    (∀ b : List Char, InsNW none b (fixedBody b))
    ∧ fixedBody
        (strL "console.log(_error); throw _error; return _error; _error.x;") =
      strL "console.log(_error); throw _error; return _error; _error.x;" := by
  constructor
  · intro b
    exact renx_insnw (fixedBody_renx b)
  · decide

/-- C10 (only the five enumerated shapes are rewritten): for every body,
the rewriter's output is related to its input by `RenX []`: it differs
from the input only by `_` insertions at occurrences of `error` standing
in one of the five shapes of `shapeOk` — member access `error.` at a word
boundary, `(error)`, `, error)`, `throw error;`, `return error;`.  An
occurrence in none of these shapes (bare first argument, right of an
assignment, whitespace before the dot, `throw error` without `;`) is
copied unchanged, as the concrete conjunct shows. -/
theorem c10_only_five_shapes :
    (∀ b : List Char, RenX [] b (fixedBody b))
    ∧ fixedBody (strL "f(error, x); y = error; error .p; throw error") =
      strL "f(error, x); y = error; error .p; throw error" := by
  constructor
  · exact fixedBody_renx
  · decide
